import Mathlib

/-!
Shallow embedding of the TFRT host context (`host_context.cc`): the
parallel-for bisection scheduler, the `RunWhenReady` join barrier, the
cancel slot, the shared-context registry, the blocking-work enqueue and
the global host-context instance table, together with proofs of the
specified properties.
-/

namespace HostCtx

/-! ## Parallel-for (`HostContext::ParallelFor`, `ParallelForExecutionContext`) -/

/-- `ParallelForExecutionContext::DivUp`: `(x + y - 1) / y`. -/
def DivUp (x y : Nat) : Nat := (x + y - 1) / y

/-- The split point of `EvalBlocks`: `mid_block = start_block + (end_block - start_block) / 2`. -/
def evalMid (start_block end_block : Nat) : Nat :=
  start_block + (end_block - start_block) / 2

/-- `ParallelForExecutionContext::EvalBlocks`, as the list of
`compute(lo, hi)` calls issued across the caller invocation and all
transitively enqueued tasks.  The while loop `while (end - start > 1)`
enqueues `EvalBlocks(mid, end)` and continues with `end = mid`, which is
the right recursive call here; the loop continuation `[start, mid)` is the
left recursive call.  After the loop the single block
`compute(start * B, min(n, end * B))` runs. -/
def EvalBlocks (n B start_block end_block : Nat) : List (Nat × Nat) :=
  if _h : end_block - start_block > 1 then
    EvalBlocks n B start_block (evalMid start_block end_block) ++
      EvalBlocks n B (evalMid start_block end_block) end_block
  else
    [(start_block * B, min n (end_block * B))]
termination_by end_block - start_block
decreasing_by
  · unfold evalMid; omega
  · unfold evalMid; omega

/-- Number of `EnqueueWork` calls issued by `EvalBlocks(start, end)` and its
transitively enqueued tasks: one per iteration of the while loop. -/
def evalEnqueues (start_block end_block : Nat) : Nat :=
  if _h : end_block - start_block > 1 then
    1 + evalEnqueues start_block (evalMid start_block end_block) +
      evalEnqueues (evalMid start_block end_block) end_block
  else 0
termination_by end_block - start_block
decreasing_by
  · unfold evalMid; omega
  · unfold evalMid; omega

/-- The block size chosen by `HostContext::ParallelFor`:
`max(min_block_size, n / (kMaxOversharding * GetNumWorkerThreads()))`
with `kMaxOversharding = 4` and `P = GetNumWorkerThreads()`. -/
def blockSize (P min_block_size n : Nat) : Nat :=
  max min_block_size (n / (4 * P))

/-- Which path `HostContext::ParallelFor` takes: the synchronous
single-block path, or the asynchronous path through a heap
`ParallelForExecutionContext` whose `pending_blocks_` counter starts at
`DivUp(n, block_size)` and which starts `EvalBlocks(0, PendingBlocks())`
on the caller thread. -/
inductive PFRun where
  | sync
  | async (pending startBlock endBlock : Nat)
  deriving DecidableEq, Repr

/-- The dispatch of `HostContext::ParallelFor`. -/
def ParallelForRun (P min_block_size n : Nat) : PFRun :=
  let B := blockSize P min_block_size n
  if n ≤ B then PFRun.sync
  else PFRun.async (DivUp n B) 0 (DivUp n B)

/-- Observable events of a parallel-for execution. -/
inductive PFEvent where
  | compute (lo hi : Nat)
  | onDone
  deriving DecidableEq, Repr

/-- The compute calls issued by `ParallelFor`: `compute(0, n)` on the
synchronous path, the `EvalBlocks` calls otherwise. -/
def ParallelForComputes (P min_block_size n : Nat) : List (Nat × Nat) :=
  let B := blockSize P min_block_size n
  if n ≤ B then [(0, n)]
  else EvalBlocks n B 0 (DivUp n B)

/-- The serialized event trace of `ParallelFor`: the compute calls, and
`on_done` once all blocks are done (on the synchronous path, directly
after `compute(0, n)`). -/
def ParallelForTrace (P min_block_size n : Nat) : List PFEvent :=
  (ParallelForComputes P min_block_size n).map (fun b => PFEvent.compute b.1 b.2) ++
    [PFEvent.onDone]

/-- Total number of work-queue submissions performed by `ParallelFor`. -/
def ParallelForEnqueues (P min_block_size n : Nat) : Nat :=
  let B := blockSize P min_block_size n
  if n ≤ B then 0 else evalEnqueues 0 (DivUp n B)

/-- The previous value observed by the `fetch_sub(1)` of participant `i`
in a group of `p` decrements of a counter initialised to `p`, where
`dT j` is the position of participant `j`'s decrement in the modification
order of the atomic: `p` minus the number of decrements ordered before
`i`'s. -/
def observedPrev (p : Nat) (dT : Nat → Nat) (i : Nat) : Nat :=
  p - ((Finset.range p).filter (fun j => dT j < dT i)).card

/-! ### Basic parallel-for lemmas -/

theorem EvalBlocks_split (n B lo hi : Nat) (h : hi - lo > 1) :
    EvalBlocks n B lo hi =
      EvalBlocks n B lo (evalMid lo hi) ++ EvalBlocks n B (evalMid lo hi) hi := by
  rw [EvalBlocks]
  simp [h]

theorem EvalBlocks_base (n B lo hi : Nat) (h : ¬ hi - lo > 1) :
    EvalBlocks n B lo hi = [(lo * B, min n (hi * B))] := by
  rw [EvalBlocks]
  simp [h]

theorem evalMid_lt (lo hi : Nat) (h : hi - lo > 1) :
    lo < evalMid lo hi ∧ evalMid lo hi < hi := by
  unfold evalMid; omega

/-- The compute calls of `EvalBlocks(lo, hi)` are exactly the blocks
`(i·B, min(n, (i+1)·B))` for `i ∈ [lo, hi)`. -/
theorem EvalBlocks_eq_range (n B : Nat) :
    ∀ d lo hi, hi - lo = d → lo < hi →
      EvalBlocks n B lo hi =
        (List.range' lo (hi - lo)).map (fun i => (i * B, min n ((i + 1) * B))) := by
  intro d
  induction d using Nat.strong_induction_on with
  | _ d ih =>
    intro lo hi hd hlt
    by_cases h : hi - lo > 1
    · have hm := evalMid_lt lo hi h
      rw [EvalBlocks_split n B lo hi h]
      rw [ih (evalMid lo hi - lo) (by omega) lo (evalMid lo hi) rfl (by omega)]
      rw [ih (hi - evalMid lo hi) (by omega) (evalMid lo hi) hi rfl (by omega)]
      rw [← List.map_append]
      have : List.range' lo (evalMid lo hi - lo) ++ List.range' (evalMid lo hi) (hi - evalMid lo hi)
          = List.range' lo (hi - lo) := by
        have h2 := List.range'_append lo (evalMid lo hi - lo) (hi - evalMid lo hi) 1
        simp only [one_mul] at h2
        rw [show lo + (evalMid lo hi - lo) = evalMid lo hi by omega] at h2
        rw [show (hi - evalMid lo hi) + (evalMid lo hi - lo) = hi - lo by omega] at h2
        exact h2
      rw [this]
    · have h1 : hi - lo = 1 := by omega
      rw [EvalBlocks_base n B lo hi h, h1]
      have h2 : hi = lo + 1 := by omega
      simp [List.range', h2]

theorem EvalBlocks_length (n B lo hi : Nat) (h : lo < hi) :
    (EvalBlocks n B lo hi).length = hi - lo := by
  rw [EvalBlocks_eq_range n B (hi - lo) lo hi rfl h]
  simp

/-! ### `DivUp` arithmetic -/

theorem DivUp_succ_pred (n B : Nat) (hB : 0 < B) (hn : 0 < n) :
    DivUp n B = (n - 1) / B + 1 := by
  unfold DivUp
  rw [show n + B - 1 = (n - 1) + B by omega]
  exact Nat.add_div_right _ hB

/-- `DivUp n B` blocks of size `B` cover at least `n` items. -/
theorem le_DivUp_mul (n B : Nat) (hB : 0 < B) : n ≤ DivUp n B * B := by
  rcases Nat.eq_zero_or_pos n with h0 | h0
  · simp [h0]
  · have h1 : (n - 1) / B < DivUp n B := by
      rw [DivUp_succ_pred n B hB h0]; omega
    have h2 := (Nat.div_lt_iff_lt_mul hB).mp h1
    omega

/-- `DivUp n B` is minimal: one block fewer does not reach `n`. -/
theorem DivUp_mul_lt_add (n B : Nat) (hB : 0 < B) : DivUp n B * B < n + B := by
  rcases Nat.eq_zero_or_pos n with h0 | h0
  · subst h0
    unfold DivUp
    simp [Nat.div_eq_of_lt (show B - 1 < B by omega), hB]
  · rw [DivUp_succ_pred n B hB h0, Nat.add_mul, one_mul]
    have h2 : (n - 1) / B * B ≤ n - 1 := Nat.div_mul_le_self (n - 1) B
    revert h2
    generalize (n - 1) / B * B = t
    intro h2
    omega

theorem DivUp_pos (n B : Nat) (hB : 0 < B) (hn : 0 < n) : 0 < DivUp n B := by
  rw [DivUp_succ_pred n B hB hn]; exact Nat.succ_pos _

/-! ### Block coverage -/

/-- The block containing index `j` is block `j / B`, and it is the only
one among `(i·B, min n ((i+1)·B))`. -/
theorem block_mem_iff (n B i j : Nat) (hB : 0 < B) (hj : j < n) :
    ((decide (i * B ≤ j) && decide (j < min n ((i + 1) * B))) = true) ↔ i = j / B := by
  simp only [Bool.and_eq_true, decide_eq_true_eq, lt_min_iff]
  constructor
  · rintro ⟨h1, -, h2⟩
    exact (Nat.div_eq_of_lt_le h1 h2).symm
  · rintro rfl
    refine ⟨Nat.div_mul_le_self j B, hj, ?_⟩
    exact (Nat.div_lt_iff_lt_mul hB).mp (Nat.lt_succ_self _)

theorem countP_range'_eq (p c : Nat) :
    (List.range' 0 p).countP (fun i => decide (i = c)) = if c < p then 1 else 0 := by
  induction p with
  | zero => simp
  | succ p ih =>
    rw [List.range'_concat]
    rw [List.countP_append, ih]
    simp only [one_mul, Nat.zero_add, List.countP_cons, List.countP_nil]
    by_cases h : c < p
    · have : ¬ (p = c) := by omega
      simp [h, this, show c < p + 1 by omega]
    · by_cases h2 : c = p
      · subst h2
        simp [h, Nat.lt_irrefl]
      · simp [h, h2, show ¬ c < p + 1 by omega, show ¬ (p = c) by omega]

/-- Every index `j < n` lies in exactly one of the `p = DivUp n B` blocks. -/
theorem blocks_partition (n B p j : Nat) (hB : 0 < B) (hj : j < n) (hn : n ≤ p * B) :
    ((List.range' 0 p).map (fun i => (i * B, min n ((i + 1) * B)))).countP
      (fun b => decide (b.1 ≤ j) && decide (j < b.2)) = 1 := by
  rw [List.countP_map]
  have hc : ∀ x ∈ List.range' 0 p,
      ((fun b : Nat × Nat => decide (b.1 ≤ j) && decide (j < b.2)) ∘
        (fun i => (i * B, min n ((i + 1) * B)))) x = true ↔
      (fun i => decide (i = j / B)) x = true := by
    intro x _
    simp only [Function.comp]
    rw [block_mem_iff n B x j hB hj]
    simp
  rw [List.countP_congr hc, countP_range'_eq]
  have : j / B < p := (Nat.div_lt_iff_lt_mul hB).mpr (lt_of_lt_of_le hj hn)
  simp [this]

/-! ### The pending-blocks decrement protocol -/

/-- In a group of `p ≥ 1` decrements with distinct modification-order
positions `dT`, exactly one participant observes previous value 1, namely
the last one, and its decrement is ordered after everyone.  This is the
`pending_blocks_.fetch_sub(1) == 1` guard of `EvalBlocks` and the
`data->counter.fetch_sub(1) != 1` guard of `RunWhenReady`. -/
theorem lastDecrement_unique (p : Nat) (hp : 0 < p) (dT : Nat → Nat)
    (hinj : ∀ i, i < p → ∀ j, j < p → dT i = dT j → i = j) :
    (∃! i, i < p ∧ observedPrev p dT i = 1) ∧
      ∀ i, i < p → observedPrev p dT i = 1 → ∀ j, j < p → dT j ≤ dT i := by
  have hmax : ∀ i, i < p → observedPrev p dT i = 1 → ∀ j, j < p → dT j ≤ dT i := by
    intro i hi hobs j hj
    by_contra hlt
    push_neg at hlt
    -- the filter excludes i itself and misses j only if dT j ≥ dT i, so its
    -- card can reach p - 1 only when every other index is below i
    have hsub : (Finset.range p).filter (fun k => dT k < dT i) ⊆
        ((Finset.range p).erase j).erase i := by
      intro k hk
      simp only [Finset.mem_filter, Finset.mem_range] at hk
      rcases hk with ⟨hkp, hkd⟩
      refine Finset.mem_erase.mpr ⟨?_, Finset.mem_erase.mpr ⟨?_, Finset.mem_range.mpr hkp⟩⟩
      · rintro rfl; exact Nat.lt_irrefl _ hkd
      · rintro rfl; exact absurd hkd (not_lt.mpr (le_of_lt hlt))
    have hij : i ≠ j := by
      rintro rfl; exact (Nat.lt_irrefl (dT i)) hlt
    have hcard : (((Finset.range p).erase j).erase i).card = p - 2 := by
      rw [Finset.card_erase_of_mem, Finset.card_erase_of_mem, Finset.card_range]
      · omega
      · exact Finset.mem_range.mpr hj
      · exact Finset.mem_erase.mpr ⟨hij, Finset.mem_range.mpr hi⟩
    have hle := Finset.card_le_card hsub
    rw [hcard] at hle
    unfold observedPrev at hobs
    have hple : ((Finset.range p).filter (fun k => dT k < dT i)).card ≤
        (Finset.range p).card := Finset.card_le_card (Finset.filter_subset _ _)
    rw [Finset.card_range] at hple
    omega
  refine ⟨?_, hmax⟩
  obtain ⟨i₀, hi₀, hmax₀⟩ := Finset.exists_max_image (Finset.range p) dT
    ⟨0, Finset.mem_range.mpr hp⟩
  rw [Finset.mem_range] at hi₀
  have hfilter : (Finset.range p).filter (fun k => dT k < dT i₀) =
      (Finset.range p).erase i₀ := by
    apply Finset.ext
    intro k
    simp only [Finset.mem_filter, Finset.mem_range, Finset.mem_erase]
    constructor
    · rintro ⟨hkp, hkd⟩
      refine ⟨?_, hkp⟩
      rintro rfl; exact Nat.lt_irrefl _ hkd
    · rintro ⟨hne, hkp⟩
      refine ⟨hkp, ?_⟩
      have hle := hmax₀ k (Finset.mem_range.mpr hkp)
      rcases Nat.lt_or_ge (dT k) (dT i₀) with h | h
      · exact h
      · exact absurd (hinj k hkp i₀ hi₀ (le_antisymm hle h)) hne
  have hobs₀ : observedPrev p dT i₀ = 1 := by
    unfold observedPrev
    rw [hfilter, Finset.card_erase_of_mem (Finset.mem_range.mpr hi₀), Finset.card_range]
    omega
  refine ⟨i₀, ⟨hi₀, hobs₀⟩, ?_⟩
  rintro k ⟨hk, hkobs⟩
  have h1 := hmax k hk hkobs i₀ hi₀
  have h2 := hmax i₀ hi₀ hobs₀ k hk
  exact hinj k hk i₀ hi₀ (le_antisymm h2 h1)

/-! ## `HostContext::RunWhenReady` -/

/-- The observable state of an `AsyncValue` input. -/
inductive AVState where
  | unresolved
  | concrete
  | error
  deriving DecidableEq, Repr

/-- Modelled from the spec: `AsyncValue::IsAvailable` (declared in
`async_value.h`, not among the sources here).  The spec's data model sums
the state as `{ Unresolved, Concrete(T), Error(Diagnostic), ... }` and
treats a value as resolved exactly when its state is Concrete or Error. -/
def IsAvailable : AVState → Bool
  | AVState.unresolved => false
  | AVState.concrete => true
  | AVState.error => true

/-- The quick scan at the head of `RunWhenReady`: the unavailable values,
paired with their positions in the argument list. -/
def unavailableValues (values : List AVState) : List (Nat × AVState) :=
  values.enum.filter (fun iv => !IsAvailable iv.2)

/-- What `RunWhenReady` does with the callee. -/
inductive RWRAction where
  | syncCall
  | andThenOne (idx : Nat)
  | counterJoin (counter : Nat)
  deriving DecidableEq, Repr

/-- `HostContext::RunWhenReady`: run synchronously if every value is
available; `AndThen` the single unavailable value if there is exactly one;
otherwise heap-allocate a `CounterAndCallee` with the counter initialised
to `unavailable_values.size()` and attach a `fetch_sub(1)` continuation to
each unavailable value. -/
def RunWhenReady (values : List AVState) : RWRAction :=
  match unavailableValues values with
  | [] => RWRAction.syncCall
  | [iv] => RWRAction.andThenOne iv.1
  | l => RWRAction.counterJoin l.length

/-! ## Cancellation (`HostContext::CancelExecution`, `HostContext::Restart`) -/

/-- C++ `std::memory_order` constants appearing in the source. -/
inductive MemOrder where
  | relaxed
  | acquire
  | release
  | acqRel
  | seqCst
  deriving DecidableEq, Repr

/-- Success ordering of the `compare_exchange_strong` in `CancelExecution`. -/
def cancelCasSuccessOrder : MemOrder := MemOrder.release

/-- Failure ordering of the `compare_exchange_strong` in `CancelExecution`. -/
def cancelCasFailureOrder : MemOrder := MemOrder.relaxed

/-- Ordering of the `exchange` in `Restart`. -/
def restartExchangeOrder : MemOrder := MemOrder.acqRel

/-- `HostContext::CancelExecution(msg)`: make a fresh error value for `msg`
and `compare_exchange_strong(expected = nullptr, error_value)` it into
`cancel_value_`.  Returns the new slot contents and whether the fresh
error value was dropped (`DropRef` on CAS failure). -/
def CancelExecution (msg : String) (cancel_value : Option String) :
    Option String × Bool :=
  match cancel_value with
  | none => (some msg, false)
  | some v => (some v, true)

/-- `HostContext::Restart()`: `cancel_value_.exchange(nullptr)`; the
previous value, if any, is dropped.  Returns the new slot contents and
whether a previous reference was dropped. -/
def Restart (cancel_value : Option String) : Option String × Bool :=
  (none, cancel_value.isSome)

/-- The slot contents after a sequence of `CancelExecution` calls. -/
def foldCancels (msgs : List String) (slot : Option String) : Option String :=
  msgs.foldl (fun s m => (CancelExecution m s).1) slot

/-! ## Shared-context registry (`HostContext::SharedContextManager`) -/

/-- Capacity of `shared_context_instances_`: `std::array<..., 256>`. -/
def N_SHARED : Nat := 256

/-- Outcome of one `GetOrCreateSharedContext` call: the instance handed to
the caller along with whether this call invoked the factory, or the
assertion failure for an out-of-range id. -/
inductive SCMResult where
  | ok (inst : Nat) (factoryCalled : Bool)
  | assertFailed
  deriving DecidableEq, Repr

/-- `SharedContextManager::GetOrCreateSharedContext`: assert
`shared_context_id < shared_context_instances_.size()`; `std::call_once`
runs the factory only when the slot has not been initialised, and every
caller reads the stored instance.  `inst` stands for the instance the
factory would create; instances are identified by numbers. -/
def GetOrCreateSharedContext (slots : Fin N_SHARED → Option Nat) (id : Nat)
    (inst : Nat) : (Fin N_SHARED → Option Nat) × SCMResult :=
  if h : id < N_SHARED then
    match slots ⟨id, h⟩ with
    | some v => (slots, SCMResult.ok v false)
    | none => (Function.update slots ⟨id, h⟩ (some inst), SCMResult.ok inst true)
  else (slots, SCMResult.assertFailed)

/-- Run a sequence of `GetOrCreateSharedContext` calls against the same id,
where `insts` lists the instance each call's factory would create. -/
def runSharedCalls (slots : Fin N_SHARED → Option Nat) (id : Nat) :
    List Nat → (Fin N_SHARED → Option Nat) × List SCMResult
  | [] => (slots, [])
  | inst :: rest =>
    let r := GetOrCreateSharedContext slots id inst
    let rr := runSharedCalls r.1 id rest
    (rr.1, r.2 :: rr.2)

/-! ## Blocking work (`HostContext::EnqueueBlockingWork`) -/

/-- The blocking-work admission behaviour of a concrete work queue. -/
structure WorkQueue where
  acceptsBlocking : Nat → Bool

/-- Modelled from the spec: `ConcurrentWorkQueue::AddBlockingTask` (declared
in `concurrent_work_queue.h`, not among the sources here) hands the task
back — `Some(task)`, ownership returned — when it rejects it, and returns
`None` when it accepts it.  Tasks are identified by numbers. -/
def AddBlockingTask (q : WorkQueue) (task : Nat) : Option Nat :=
  if q.acceptsBlocking task then none else some task

/-- Everything `EnqueueBlockingWork` lets its caller observe. -/
structure BlockingCallResult where
  accepted : Bool
  ranInCall : Bool
  returnedClosure : Option Nat
  deriving DecidableEq, Repr

/-- `HostContext::EnqueueBlockingWork`: calls
`work_queue_->AddBlockingTask(task, allow_queuing = true)` and returns
`!task.hasValue()`.  The local `Optional` holding a rejected task is
destroyed when the function returns: the closure is not run and only the
boolean reaches the caller. -/
def EnqueueBlockingWork (q : WorkQueue) (task : Nat) : BlockingCallResult :=
  { accepted := !(AddBlockingTask q task).isSome
    ranInCall := false
    returnedClosure := none }

/-! ## Instance indices (`HostContext::HostContext`, `~HostContext`) -/

/-- The process-global state: `next_host_context_index` and occupancy of
`all_host_contexts_`. -/
structure HCGlobal where
  nextIndex : Nat
  table : Nat → Bool

def initHCGlobal : HCGlobal := { nextIndex := 0, table := fun _ => false }

/-- `HostContext::HostContext` on the process-global state:
`instance_index = next_host_context_index.fetch_add(1)`; assert
`instance_index < cap` where `cap` is `HostContextPtr::kDummyIndex`, the
size of `all_host_contexts_` (abort on failure, modelled as `error`);
then `all_host_contexts_[instance_index] = this`. -/
def constructHC (cap : Nat) (g : HCGlobal) : Except Unit (HCGlobal × Nat) :=
  let idx := g.nextIndex
  if idx < cap then
    Except.ok
      ({ nextIndex := idx + 1, table := fun i => if i = idx then true else g.table i }, idx)
  else Except.error ()

/-- `HostContext::~HostContext`: `all_host_contexts_[instance_index()] = nullptr`. -/
def destroyHC (g : HCGlobal) (idx : Nat) : HCGlobal :=
  { g with table := fun i => if i = idx then false else g.table i }

inductive HCOp where
  | construct
  | destroy (idx : Nat)

/-- Run a sequence of constructions and destructions, collecting the
instance indices handed out by successful constructions. -/
def runHCOps (cap : Nat) : List HCOp → HCGlobal → Except Unit (HCGlobal × List Nat)
  | [], g => Except.ok (g, [])
  | HCOp.construct :: rest, g =>
    match constructHC cap g with
    | Except.error _ => Except.error ()
    | Except.ok (g2, idx) =>
      match runHCOps cap rest g2 with
      | Except.error _ => Except.error ()
      | Except.ok (g3, l) => Except.ok (g3, idx :: l)
  | HCOp.destroy i :: rest, g => runHCOps cap rest (destroyHC g i)

/-! ## Parallel-for claim lemmas -/

theorem blockSize_pos (P minB n : Nat) (hm : 0 < minB) : 0 < blockSize P minB n :=
  lt_of_lt_of_le hm (le_max_left _ _)

theorem ParallelForComputes_async (P minB n : Nat) (hm : 0 < minB)
    (h : ¬ n ≤ blockSize P minB n) :
    ParallelForComputes P minB n =
      (List.range' 0 (DivUp n (blockSize P minB n))).map
        (fun i => (i * blockSize P minB n, min n ((i + 1) * blockSize P minB n))) := by
  have hB : 0 < blockSize P minB n := blockSize_pos P minB n hm
  have hn : 0 < n := by omega
  have hp : 0 < DivUp n (blockSize P minB n) := DivUp_pos _ _ hB hn
  simp only [ParallelForComputes]
  rw [if_neg h]
  have h2 := EvalBlocks_eq_range n (blockSize P minB n) (DivUp n (blockSize P minB n)) 0
    (DivUp n (blockSize P minB n)) (by omega) hp
  simpa using h2

theorem ParallelForComputes_bounds (P minB n : Nat) (hm : 0 < minB) (hn : 0 < n) :
    ∀ b ∈ ParallelForComputes P minB n, b.1 < b.2 ∧ b.2 ≤ n := by
  intro b hb
  by_cases h : n ≤ blockSize P minB n
  · simp only [ParallelForComputes, if_pos h, List.mem_singleton] at hb
    subst hb
    exact ⟨hn, le_refl n⟩
  · rw [ParallelForComputes_async P minB n hm h] at hb
    obtain ⟨i, hi, rfl⟩ := List.mem_map.mp hb
    rw [List.mem_range'] at hi
    obtain ⟨k, hk, hik⟩ := hi
    have hB : 0 < blockSize P minB n := blockSize_pos P minB n hm
    have hiP : i < DivUp n (blockSize P minB n) := by omega
    constructor
    · rw [lt_min_iff]
      constructor
      · -- i·B < n because even (p-1)·B < n
        have h1 : DivUp n (blockSize P minB n) * blockSize P minB n <
            n + blockSize P minB n := DivUp_mul_lt_add n _ hB
        have h2 : i * blockSize P minB n + blockSize P minB n ≤
            DivUp n (blockSize P minB n) * blockSize P minB n := by
          have h3 : i + 1 ≤ DivUp n (blockSize P minB n) := hiP
          calc i * blockSize P minB n + blockSize P minB n
              = (i + 1) * blockSize P minB n := by ring
            _ ≤ DivUp n (blockSize P minB n) * blockSize P minB n :=
                Nat.mul_le_mul_right _ h3
        omega
      · exact (Nat.mul_lt_mul_right hB).mpr (Nat.lt_succ_self i)
    · exact min_le_left _ _

/-- C9: for every call `EvalBlocks(lo, hi)` with `lo < hi`, the recursion
terminates (`EvalBlocks` is admitted by well-founded recursion on
`hi - lo`): each split point `mid = lo + (hi - lo)/2` satisfies
`lo < mid < hi`, so the loop range and the enqueued subtask range both
strictly shrink; an invocation with a unit range performs exactly the one
compute call `compute(lo·B, min(n, hi·B))`; and the total number of
compute calls spawned from `EvalBlocks(0, p)` is exactly `p`. -/
theorem EvalBlocks_terminates_and_counts (n B lo hi : Nat) (h : lo < hi) :
    (1 < hi - lo →
      lo < evalMid lo hi ∧ evalMid lo hi < hi ∧
        EvalBlocks n B lo hi =
          EvalBlocks n B lo (evalMid lo hi) ++ EvalBlocks n B (evalMid lo hi) hi)
    ∧ (hi - lo = 1 → EvalBlocks n B lo hi = [(lo * B, min n (hi * B))])
    ∧ (EvalBlocks n B lo hi).length = hi - lo
    ∧ ∀ p, 0 < p → (EvalBlocks n B 0 p).length = p := by
  refine ⟨?_, ?_, EvalBlocks_length n B lo hi h, ?_⟩
  · intro h1
    obtain ⟨hm1, hm2⟩ := evalMid_lt lo hi h1
    exact ⟨hm1, hm2, EvalBlocks_split n B lo hi h1⟩
  · intro h1
    exact EvalBlocks_base n B lo hi (by omega)
  · intro p hp
    have := EvalBlocks_length n B 0 p hp
    simpa using this

/-- C4: `ParallelFor` computes the block size
`B = max(min_block_size, n / (4 · parallelism_level))`; when `n ≤ B` it
takes the synchronous path, running `compute(0, n)` and then `on_done()`
on the caller with no work-queue submission and no heap context;
otherwise it allocates an execution context whose `pending_blocks_`
counter starts at `DivUp(n, B)` — the least `p` with `n ≤ p·B`, i.e.
`⌈n/B⌉` — and starts `EvalBlocks(0, pending)` on the caller thread. -/
theorem ParallelFor_dispatch (P minB n : Nat) ( _hP : 0 < P) (hm : 0 < minB) :
    blockSize P minB n = max minB (n / (4 * P))
    ∧ (n ≤ blockSize P minB n →
        ParallelForRun P minB n = PFRun.sync
        ∧ ParallelForTrace P minB n = [PFEvent.compute 0 n, PFEvent.onDone]
        ∧ ParallelForEnqueues P minB n = 0)
    ∧ (¬ n ≤ blockSize P minB n →
        ParallelForRun P minB n =
          PFRun.async (DivUp n (blockSize P minB n)) 0 (DivUp n (blockSize P minB n))
        ∧ n ≤ DivUp n (blockSize P minB n) * blockSize P minB n
        ∧ DivUp n (blockSize P minB n) * blockSize P minB n < n + blockSize P minB n
        ∧ ∀ q, n ≤ q * blockSize P minB n → DivUp n (blockSize P minB n) ≤ q) := by
  have hB : 0 < blockSize P minB n := blockSize_pos P minB n hm
  refine ⟨rfl, ?_, ?_⟩
  · intro h
    refine ⟨?_, ?_, ?_⟩
    · simp only [ParallelForRun]; rw [if_pos h]
    · simp only [ParallelForTrace, ParallelForComputes]; rw [if_pos h]; rfl
    · simp only [ParallelForEnqueues]; rw [if_pos h]
  · intro h
    refine ⟨?_, le_DivUp_mul n _ hB, DivUp_mul_lt_add n _ hB, ?_⟩
    · simp only [ParallelForRun]; rw [if_neg h]
    · intro q hq
      by_contra hlt
      push_neg at hlt
      have h1 : q + 1 ≤ DivUp n (blockSize P minB n) := hlt
      have h2 : (q + 1) * blockSize P minB n ≤
          DivUp n (blockSize P minB n) * blockSize P minB n :=
        Nat.mul_le_mul_right _ h1
      have h3 := DivUp_mul_lt_add n (blockSize P minB n) hB
      have h4 : (q + 1) * blockSize P minB n = q * blockSize P minB n + blockSize P minB n := by
        ring
      omega

/-- C1: for `ParallelFor(n, compute, on_done, min_block)` with `n ≥ 1`,
`min_block ≥ 1` and parallelism level `≥ 1`, the issued `compute(lo, hi)`
calls cover every index of `[0, n)` exactly once and stay inside `[0, n)`;
on the synchronous path `on_done` runs once, directly after the single
compute call; on the asynchronous path, for any modification order `dT` of
the `pending_blocks_.fetch_sub(1)` decrements (one per block, after that
block's compute call at `cT`), exactly one decrement observes previous
value 1 — the thread that deletes the context, whose destructor runs
`on_done` — and every compute call returns before that decrement. -/
theorem ParallelFor_partition_and_onDone (P minB n : Nat)
    ( _hP : 0 < P) (hm : 0 < minB) (hn : 0 < n) (cT dT : Nat → Nat) :
    (∀ j, j < n → (ParallelForComputes P minB n).countP
        (fun b => decide (b.1 ≤ j) && decide (j < b.2)) = 1)
    ∧ (∀ b ∈ ParallelForComputes P minB n, b.1 < b.2 ∧ b.2 ≤ n)
    ∧ (n ≤ blockSize P minB n →
        ParallelForTrace P minB n = [PFEvent.compute 0 n, PFEvent.onDone])
    ∧ (¬ n ≤ blockSize P minB n →
        (∀ i, i < DivUp n (blockSize P minB n) →
          ∀ j, j < DivUp n (blockSize P minB n) → dT i = dT j → i = j) →
        (∀ i, i < DivUp n (blockSize P minB n) → cT i < dT i) →
        (∃! i, i < DivUp n (blockSize P minB n) ∧
            observedPrev (DivUp n (blockSize P minB n)) dT i = 1)
        ∧ ∀ i, i < DivUp n (blockSize P minB n) →
            observedPrev (DivUp n (blockSize P minB n)) dT i = 1 →
            ∀ j, j < DivUp n (blockSize P minB n) → cT j < dT i) := by
  have hB : 0 < blockSize P minB n := blockSize_pos P minB n hm
  refine ⟨?_, ParallelForComputes_bounds P minB n hm hn, ?_, ?_⟩
  · intro j hj
    by_cases h : n ≤ blockSize P minB n
    · simp only [ParallelForComputes, if_pos h]
      simp [hj, Nat.zero_le]
    · rw [ParallelForComputes_async P minB n hm h]
      exact blocks_partition n (blockSize P minB n) (DivUp n (blockSize P minB n)) j hB hj
        (le_DivUp_mul n _ hB)
  · intro h
    simp only [ParallelForTrace, ParallelForComputes]
    rw [if_pos h]
    rfl
  · intro h hinj hprog
    have hp : 0 < DivUp n (blockSize P minB n) := DivUp_pos _ _ hB hn
    obtain ⟨huniq, hmax⟩ := lastDecrement_unique (DivUp n (blockSize P minB n)) hp dT hinj
    refine ⟨huniq, ?_⟩
    intro i hi hobs j hj
    exact lt_of_lt_of_le (hprog j hj) (hmax i hi hobs j hj)

/-- C10: `ParallelFor` with `n = 0` (and `min_block ≥ 1`, parallelism
level `≥ 1`) takes the synchronous path — `0 ≤ block_size` always — so it
issues exactly `compute(0, 0)` followed by `on_done()` on the caller
thread and enqueues nothing. -/
theorem ParallelFor_zero_sync (P minB : Nat) ( _hP : 0 < P) ( _hm : 0 < minB) :
    ParallelForRun P minB 0 = PFRun.sync
    ∧ ParallelForComputes P minB 0 = [(0, 0)]
    ∧ ParallelForTrace P minB 0 = [PFEvent.compute 0 0, PFEvent.onDone]
    ∧ ParallelForEnqueues P minB 0 = 0 := by
  have h : (0 : Nat) ≤ blockSize P minB 0 := Nat.zero_le _
  refine ⟨?_, ?_, ?_, ?_⟩
  · simp only [ParallelForRun]; rw [if_pos h]
  · simp only [ParallelForComputes]; rw [if_pos h]
  · simp only [ParallelForTrace, ParallelForComputes]; rw [if_pos h]; rfl
  · simp only [ParallelForEnqueues]; rw [if_pos h]

/-! ## RunWhenReady claim lemmas -/

theorem unavailableValues_length (values : List AVState) :
    (unavailableValues values).length = values.countP (fun v => !IsAvailable v) := by
  unfold unavailableValues
  rw [← List.countP_eq_length_filter]
  have h : values.countP (fun v => !IsAvailable v)
      = (values.enum.map Prod.snd).countP (fun v => !IsAvailable v) := by
    rw [List.enum_eq_enumFrom, List.enumFrom_map_snd]
  rw [h, List.countP_map]
  rfl

theorem unavailableValues_unresolved (values : List AVState) :
    ∀ iv ∈ unavailableValues values, iv.2 = AVState.unresolved := by
  intro iv hiv
  unfold unavailableValues at hiv
  rw [List.mem_filter] at hiv
  rcases hiv with ⟨-, hpred⟩
  cases h : iv.2 with
  | unresolved => rfl
  | concrete => rw [h] at hpred; simp [IsAvailable] at hpred
  | error => rw [h] at hpred; simp [IsAvailable] at hpred

/-- C2: `RunWhenReady` dispatches by the number of not-yet-resolved
inputs.  If all values are available it invokes the callee synchronously;
if exactly one is pending it registers the callee as a continuation
(`AndThen`) on that value; if two or more are pending it heap-allocates a
`CounterAndCallee` whose counter starts at the number of pending values
and attaches a `fetch_sub(1)` continuation to each pending value, the
decrementer that observes previous value 1 running the callee and freeing
the record (`observedPrev · = 1`, unique by `lastDecrement_unique`). -/
theorem RunWhenReady_dispatch (values : List AVState) (fT : Nat → Nat) :
    (values.countP (fun v => !IsAvailable v) = 0 →
      RunWhenReady values = RWRAction.syncCall)
    ∧ (values.countP (fun v => !IsAvailable v) = 1 →
      ∃ i, (i, AVState.unresolved) ∈ values.enum
        ∧ RunWhenReady values = RWRAction.andThenOne i)
    ∧ (2 ≤ values.countP (fun v => !IsAvailable v) →
      RunWhenReady values = RWRAction.counterJoin
        (values.countP (fun v => !IsAvailable v))
      ∧ ((∀ i, i < values.countP (fun v => !IsAvailable v) →
            ∀ j, j < values.countP (fun v => !IsAvailable v) → fT i = fT j → i = j) →
          ∃! i, i < values.countP (fun v => !IsAvailable v)
            ∧ observedPrev (values.countP (fun v => !IsAvailable v)) fT i = 1)) := by
  have hlen := unavailableValues_length values
  refine ⟨?_, ?_, ?_⟩
  · intro h0
    have hnil : unavailableValues values = [] := by
      rw [← List.length_eq_zero, hlen, h0]
    simp [RunWhenReady, hnil]
  · intro h1
    have hone : (unavailableValues values).length = 1 := by rw [hlen, h1]
    obtain ⟨iv, hiv⟩ := List.length_eq_one.mp hone
    have hmem : iv ∈ unavailableValues values := by rw [hiv]; exact List.mem_singleton.mpr rfl
    have hunres := unavailableValues_unresolved values iv hmem
    refine ⟨iv.1, ?_, ?_⟩
    · have hmem2 : iv ∈ values.enum := by
        have := List.mem_filter.mp (by rw [unavailableValues] at hmem; exact hmem)
        exact this.1
      have : iv = (iv.1, AVState.unresolved) := by
        rw [← hunres]
      rw [← this]
      exact hmem2
    · simp [RunWhenReady, hiv]
  · intro h2
    have hlen2 : 2 ≤ (unavailableValues values).length := by rw [hlen]; exact h2
    obtain ⟨a, l1, hal⟩ : ∃ a l1, unavailableValues values = a :: l1 := by
      cases hc : unavailableValues values with
      | nil => rw [hc] at hlen2; simp at hlen2
      | cons a l1 => exact ⟨a, l1, rfl⟩
    obtain ⟨b, l2, hbl⟩ : ∃ b l2, l1 = b :: l2 := by
      cases hc : l1 with
      | nil => rw [hal, hc] at hlen2; simp at hlen2
      | cons b l2 => exact ⟨b, l2, rfl⟩
    constructor
    · rw [← hlen]
      subst hbl
      simp [RunWhenReady, hal]
    · intro hinj
      exact (lastDecrement_unique (values.countP (fun v => !IsAvailable v))
        (by omega) fT hinj).1

/-- C3: an input in Error state counts as resolved for `RunWhenReady`: it
never appears among the pending values, and when no input is Unresolved
the callee runs synchronously even if some inputs are errors (no
short-circuit).  On the join path (two or more pending) the callback runs
exactly once — one decrement observes previous value 1 — and only after
every pending input has resolved: each continuation fires (`fT`) after
its value resolves (`rT`), and the winning decrement is ordered after all
of them, for every modification order and hence regardless of the order
or threads in which the inputs resolve. -/
theorem RunWhenReady_join_barrier (values : List AVState) (rT fT : Nat → Nat) :
    ((∀ v ∈ values, v ≠ AVState.unresolved) → RunWhenReady values = RWRAction.syncCall)
    ∧ (∀ iv ∈ unavailableValues values, iv.2 = AVState.unresolved)
    ∧ (2 ≤ (unavailableValues values).length →
        (∀ i, i < (unavailableValues values).length →
          ∀ j, j < (unavailableValues values).length → fT i = fT j → i = j) →
        (∀ i, i < (unavailableValues values).length → rT i < fT i) →
        RunWhenReady values =
          RWRAction.counterJoin (unavailableValues values).length
        ∧ (∃! i, i < (unavailableValues values).length
            ∧ observedPrev (unavailableValues values).length fT i = 1)
        ∧ ∀ i, i < (unavailableValues values).length →
            observedPrev (unavailableValues values).length fT i = 1 →
            ∀ j, j < (unavailableValues values).length → rT j < fT i) := by
  refine ⟨?_, unavailableValues_unresolved values, ?_⟩
  · intro hall
    have h0 : values.countP (fun v => !IsAvailable v) = 0 := by
      rw [List.countP_eq_zero]
      intro v hv
      have := hall v hv
      cases v with
      | unresolved => exact absurd rfl this
      | concrete => simp [IsAvailable]
      | error => simp [IsAvailable]
    have hnil : unavailableValues values = [] := by
      rw [← List.length_eq_zero, unavailableValues_length values, h0]
    simp [RunWhenReady, hnil]
  · intro hlen2 hinj hfire
    obtain ⟨a, l1, hal⟩ : ∃ a l1, unavailableValues values = a :: l1 := by
      cases hc : unavailableValues values with
      | nil => rw [hc] at hlen2; simp at hlen2
      | cons a l1 => exact ⟨a, l1, rfl⟩
    obtain ⟨b, l2, hbl⟩ : ∃ b l2, l1 = b :: l2 := by
      cases hc : l1 with
      | nil => rw [hal, hc] at hlen2; simp at hlen2
      | cons b l2 => exact ⟨b, l2, rfl⟩
    obtain ⟨huniq, hmax⟩ := lastDecrement_unique (unavailableValues values).length
      (by omega) fT hinj
    refine ⟨?_, huniq, ?_⟩
    · subst hbl
      simp [RunWhenReady, hal]
    · intro i hi hobs j hj
      exact lt_of_lt_of_le (hfire j hj) (hmax i hi hobs j hj)

/-! ## Cancellation claim lemmas -/

theorem foldCancels_some (msgs : List String) (v : String) :
    foldCancels msgs (some v) = some v := by
  induction msgs with
  | nil => rfl
  | cons m rest ih => simpa [foldCancels, CancelExecution] using ih

/-- C5: `CancelExecution(msg)` installs an error future through a
compare-exchange whose success ordering is `memory_order_release`, and is
first-writer-wins: a cancel into an empty slot installs the new future
without dropping it, while a cancel into an occupied slot keeps the
occupant and drops the newly created future — so any nonempty burst of
cancels retains exactly the first caller's message.  `Restart()` exchanges
the slot with null using `memory_order_acq_rel`, dropping the previous
reference when there was one, after which the slot is empty and a
subsequent cancel installs afresh. -/
theorem Cancel_firstWins_and_Restart :
    cancelCasSuccessOrder = MemOrder.release
    ∧ cancelCasFailureOrder = MemOrder.relaxed
    ∧ restartExchangeOrder = MemOrder.acqRel
    ∧ (∀ msg, CancelExecution msg none = (some msg, false))
    ∧ (∀ msg v, CancelExecution msg (some v) = (some v, true))
    ∧ (∀ msg rest, foldCancels (msg :: rest) none = some msg)
    ∧ (∀ slot, Restart slot = (none, slot.isSome))
    ∧ (∀ slot msg, CancelExecution msg (Restart slot).1 = (some msg, false)) := by
  refine ⟨rfl, rfl, rfl, fun msg => rfl, fun msg v => rfl, ?_, fun slot => rfl,
    fun slot msg => rfl⟩
  intro msg rest
  show foldCancels rest (CancelExecution msg none).1 = some msg
  exact foldCancels_some rest msg

/-! ## Shared-context claim lemmas -/

theorem GetOrCreateShared_stored (slots : Fin N_SHARED → Option Nat) (id : Nat)
    (h : id < N_SHARED) (v inst : Nat) (hv : slots ⟨id, h⟩ = some v) :
    GetOrCreateSharedContext slots id inst = (slots, SCMResult.ok v false) := by
  simp [GetOrCreateSharedContext, h, hv]

theorem runSharedCalls_stored (slots : Fin N_SHARED → Option Nat) (id : Nat)
    (h : id < N_SHARED) (v : Nat) (hv : slots ⟨id, h⟩ = some v) (insts : List Nat) :
    runSharedCalls slots id insts =
      (slots, insts.map (fun _ => SCMResult.ok v false)) := by
  induction insts with
  | nil => rfl
  | cons inst rest ih =>
    simp only [runSharedCalls, GetOrCreateShared_stored slots id h v inst hv, List.map_cons]
    rw [ih]

/-- C6: for a valid slot id, the factory runs at most once per
`(HostContext, id)`: the first caller through the `std::call_once` guard
creates and stores the instance, every caller — first or later — receives
that same stored instance, and the slot keeps it.  A call with
`id ≥ 256` (`shared_context_instances_.size()`, the registry capacity)
fails the assertion. -/
theorem GetOrCreateShared_once (id : Nat) :
    (N_SHARED ≤ id → ∀ slots inst,
      GetOrCreateSharedContext slots id inst = (slots, SCMResult.assertFailed))
    ∧ ∀ (h : id < N_SHARED) (slots : Fin N_SHARED → Option Nat),
        slots ⟨id, h⟩ = none → ∀ first rest,
        (runSharedCalls slots id (first :: rest)).2 =
          SCMResult.ok first true :: rest.map (fun _ => SCMResult.ok first false)
        ∧ (runSharedCalls slots id (first :: rest)).1 ⟨id, h⟩ = some first := by
  constructor
  · intro hge slots inst
    simp [GetOrCreateSharedContext, show ¬ id < N_SHARED by omega]
  · intro h slots hempty first rest
    have hfirst : GetOrCreateSharedContext slots id first =
        (Function.update slots ⟨id, h⟩ (some first), SCMResult.ok first true) := by
      simp [GetOrCreateSharedContext, h, hempty]
    have hstored : (Function.update slots ⟨id, h⟩ (some first)) ⟨id, h⟩ = some first := by
      simp
    constructor
    · simp only [runSharedCalls, hfirst]
      rw [runSharedCalls_stored _ id h first hstored rest]
    · simp only [runSharedCalls, hfirst]
      rw [runSharedCalls_stored _ id h first hstored rest]
      exact hstored

/-! ## Blocking-enqueue claim lemmas -/

/-- The work queue that rejects every blocking task. -/
def rejectAllQueue : WorkQueue := ⟨fun _ => false⟩

/-- C7 counterexample: with a rejecting queue, `EnqueueBlockingWork`
returns `false`, but the closure is not handed back to its caller — the
result carries no closure (`returnedClosure = none`, refuting "the
closure is returned to the caller"); it is destroyed unrun inside
`EnqueueBlockingWork` when the local `Optional` goes out of scope. -/
theorem EnqueueBlocking_rejected_closure_lost :
    (EnqueueBlockingWork rejectAllQueue 0).accepted = false
    ∧ (EnqueueBlockingWork rejectAllQueue 0).returnedClosure = none
    ∧ ¬ ((EnqueueBlockingWork rejectAllQueue 0).returnedClosure = some 0) := by
  decide

/-- C7 (amended): `EnqueueBlockingWork` returns a boolean meaning
accepted — `true` exactly when `AddBlockingTask` takes the task, `false`
when the queue rejects it.  In the rejected case the queue returns the
closure to `EnqueueBlockingWork` (its immediate caller), which neither
runs it nor passes it on: the rejected closure is destroyed inside
`EnqueueBlockingWork` and only the boolean reaches the outer caller. -/
theorem EnqueueBlocking_accepted_bool (q : WorkQueue) (task : Nat) :
    ((EnqueueBlockingWork q task).accepted = true ↔ AddBlockingTask q task = none)
    ∧ ((EnqueueBlockingWork q task).accepted = false →
        AddBlockingTask q task = some task
        ∧ (EnqueueBlockingWork q task).ranInCall = false
        ∧ (EnqueueBlockingWork q task).returnedClosure = none) := by
  constructor
  · simp only [EnqueueBlockingWork, AddBlockingTask]
    by_cases h : q.acceptsBlocking task <;> simp [h]
  · intro hrej
    simp only [EnqueueBlockingWork, AddBlockingTask] at hrej ⊢
    by_cases h : q.acceptsBlocking task
    · simp [h] at hrej
    · simp [h]

/-! ## Instance-index claim lemmas -/

theorem constructHC_ok (cap : Nat) (g : HCGlobal) (g2 : HCGlobal) (idx : Nat)
    (h : constructHC cap g = Except.ok (g2, idx)) :
    idx = g.nextIndex ∧ g2.nextIndex = idx + 1 ∧ g2.table idx = true
      ∧ idx < cap ∧ ∀ i, i ≠ idx → g2.table i = g.table i := by
  unfold constructHC at h
  by_cases hc : g.nextIndex < cap
  · rw [if_pos hc] at h
    injection h with h1
    injection h1 with hg hidx
    subst hidx
    subst hg
    refine ⟨rfl, rfl, by simp, hc, ?_⟩
    intro i hi
    simp [hi]
  · rw [if_neg hc] at h
    exact absurd h (by simp)

theorem runHCOps_indices (cap : Nat) :
    ∀ (ops : List HCOp) (g g2 : HCGlobal) (l : List Nat),
      runHCOps cap ops g = Except.ok (g2, l) →
      l = List.range' g.nextIndex l.length
        ∧ g2.nextIndex = g.nextIndex + l.length
        ∧ ∀ i ∈ l, i < cap := by
  intro ops
  induction ops with
  | nil =>
    intro g g2 l h
    simp only [runHCOps] at h
    injection h with h1
    injection h1 with hg hl
    subst hg; subst hl
    simp
  | cons op rest ih =>
    intro g g2 l h
    cases op with
    | construct =>
      simp only [runHCOps] at h
      cases hc : constructHC cap g with
      | error e => rw [hc] at h; exact absurd h (by simp)
      | ok r =>
        obtain ⟨ga, idx⟩ := r
        rw [hc] at h
        dsimp only at h
        cases hr : runHCOps cap rest ga with
        | error e => rw [hr] at h; exact absurd h (by simp)
        | ok r2 =>
          obtain ⟨gb, l2⟩ := r2
          rw [hr] at h
          injection h with h1
          injection h1 with hg hl
          subst hg
          subst hl
          obtain ⟨hidx, hnext, -, hlt, -⟩ := constructHC_ok cap g ga idx hc
          obtain ⟨hl2, hnext2, hcap2⟩ := ih ga gb l2 hr
          refine ⟨?_, ?_, ?_⟩
          · rw [List.length_cons, List.range'_succ]
            subst hidx
            rw [hnext] at hl2
            exact congrArg (List.cons g.nextIndex) hl2
          · rw [List.length_cons]
            omega
          · intro i hi
            rcases List.mem_cons.mp hi with rfl | hi2
            · exact hidx ▸ hlt
            · exact hcap2 i hi2
    | destroy j =>
      simp only [runHCOps] at h
      have hd : (destroyHC g j).nextIndex = g.nextIndex := rfl
      obtain ⟨hl2, hnext2, hcap2⟩ := ih (destroyHC g j) g2 l h
      rw [hd] at hl2 hnext2
      exact ⟨hl2, hnext2, hcap2⟩

/-- C8: each `HostContext` takes its instance index from the process-global
monotonically increasing `next_host_context_index` (`fetch_add(1)`), so a
successful construction gets index `nextIndex`, bumps the counter, and
records itself at that index in `all_host_contexts_`; construction fails
the assertion exactly when the counter has reached the table capacity
(`HostContextPtr::kDummyIndex`); destruction clears the slot and leaves
the counter alone; and over any sequence of constructions and
destructions the handed-out indices are the consecutive run
`range' g.nextIndex`, hence each strictly greater than every earlier one —
indices are never reused. -/
theorem HostContext_instance_indices (cap : Nat) :
    (∀ g : HCGlobal, (constructHC cap g = Except.error ()) ↔ cap ≤ g.nextIndex)
    ∧ (∀ g g2 idx, constructHC cap g = Except.ok (g2, idx) →
        idx = g.nextIndex ∧ g2.nextIndex = idx + 1 ∧ g2.table idx = true
          ∧ ∀ i, i ≠ idx → g2.table i = g.table i)
    ∧ (∀ g idx, (destroyHC g idx).table idx = false
        ∧ (destroyHC g idx).nextIndex = g.nextIndex
        ∧ ∀ i, i ≠ idx → (destroyHC g idx).table i = g.table i)
    ∧ (∀ ops g g2 l, runHCOps cap ops g = Except.ok (g2, l) →
        l = List.range' g.nextIndex l.length
          ∧ g2.nextIndex = g.nextIndex + l.length
          ∧ (∀ i ∈ l, i < cap)
          ∧ List.Chain' (fun a b => a < b) l) := by
  refine ⟨?_, ?_, ?_, ?_⟩
  · intro g
    unfold constructHC
    by_cases hc : g.nextIndex < cap
    · rw [if_pos hc]
      constructor
      · intro h; exact absurd h (by simp)
      · omega
    · rw [if_neg hc]
      constructor
      · intro _; omega
      · intro _; rfl
  · intro g g2 idx h
    obtain ⟨h1, h2, h3, -, h5⟩ := constructHC_ok cap g g2 idx h
    exact ⟨h1, h2, h3, h5⟩
  · intro g idx
    refine ⟨by simp [destroyHC], rfl, ?_⟩
    intro i hi
    simp [destroyHC, hi]
  · intro ops g g2 l h
    obtain ⟨h1, h2, h3⟩ := runHCOps_indices cap ops g g2 l h
    refine ⟨h1, h2, h3, ?_⟩
    rw [h1]
    exact (List.pairwise_lt_range' g.nextIndex l.length).chain'

/-! ## Witnesses -/

/-- A sample input for the `RunWhenReady` theorems: one concrete, one
error, and two unresolved values. -/
def sampleValues : List AVState :=
  [AVState.concrete, AVState.unresolved, AVState.error, AVState.unresolved]

/-- The global state after a sample construct/construct/destroy/construct
history with capacity 3. -/
def sampleHCFinal : HCGlobal :=
  match runHCOps 3 [HCOp.construct, HCOp.construct, HCOp.destroy 0, HCOp.construct]
      initHCGlobal with
  | Except.ok (g, _) => g
  | Except.error _ => initHCGlobal

theorem ParallelFor_partition_and_onDone_witness :
    (0 : Nat) < 1 ∧ (0 : Nat) < 8 ∧
    ((∀ j, j < 8 → (ParallelForComputes 1 1 8).countP
        (fun b => decide (b.1 ≤ j) && decide (j < b.2)) = 1)
    ∧ (∀ b ∈ ParallelForComputes 1 1 8, b.1 < b.2 ∧ b.2 ≤ 8)
    ∧ (8 ≤ blockSize 1 1 8 →
        ParallelForTrace 1 1 8 = [PFEvent.compute 0 8, PFEvent.onDone])
    ∧ (¬ 8 ≤ blockSize 1 1 8 →
        (∀ i, i < DivUp 8 (blockSize 1 1 8) →
          ∀ j, j < DivUp 8 (blockSize 1 1 8) → i + 8 = j + 8 → i = j) →
        (∀ i, i < DivUp 8 (blockSize 1 1 8) → i < i + 8) →
        (∃! i, i < DivUp 8 (blockSize 1 1 8) ∧
            observedPrev (DivUp 8 (blockSize 1 1 8)) (fun k => k + 8) i = 1)
        ∧ ∀ i, i < DivUp 8 (blockSize 1 1 8) →
            observedPrev (DivUp 8 (blockSize 1 1 8)) (fun k => k + 8) i = 1 →
            ∀ j, j < DivUp 8 (blockSize 1 1 8) → j < i + 8)) :=
  ⟨by decide, by decide,
    ParallelFor_partition_and_onDone 1 1 8 (by decide) (by decide) (by decide)
      (fun k => k) (fun k => k + 8)⟩

theorem RunWhenReady_dispatch_witness :
    sampleValues.countP (fun v => !IsAvailable v) = 2 ∧
    ((sampleValues.countP (fun v => !IsAvailable v) = 0 →
      RunWhenReady sampleValues = RWRAction.syncCall)
    ∧ (sampleValues.countP (fun v => !IsAvailable v) = 1 →
      ∃ i, (i, AVState.unresolved) ∈ sampleValues.enum
        ∧ RunWhenReady sampleValues = RWRAction.andThenOne i)
    ∧ (2 ≤ sampleValues.countP (fun v => !IsAvailable v) →
      RunWhenReady sampleValues = RWRAction.counterJoin
        (sampleValues.countP (fun v => !IsAvailable v))
      ∧ ((∀ i, i < sampleValues.countP (fun v => !IsAvailable v) →
            ∀ j, j < sampleValues.countP (fun v => !IsAvailable v) → i = j → i = j) →
          ∃! i, i < sampleValues.countP (fun v => !IsAvailable v)
            ∧ observedPrev (sampleValues.countP (fun v => !IsAvailable v))
                (fun k => k) i = 1))) :=
  ⟨by decide, RunWhenReady_dispatch sampleValues (fun k => k)⟩

theorem RunWhenReady_join_barrier_witness :
    2 ≤ (unavailableValues sampleValues).length ∧
    (((∀ v ∈ sampleValues, v ≠ AVState.unresolved) →
        RunWhenReady sampleValues = RWRAction.syncCall)
    ∧ (∀ iv ∈ unavailableValues sampleValues, iv.2 = AVState.unresolved)
    ∧ (2 ≤ (unavailableValues sampleValues).length →
        (∀ i, i < (unavailableValues sampleValues).length →
          ∀ j, j < (unavailableValues sampleValues).length → i + 2 = j + 2 → i = j) →
        (∀ i, i < (unavailableValues sampleValues).length → i < i + 2) →
        RunWhenReady sampleValues =
          RWRAction.counterJoin (unavailableValues sampleValues).length
        ∧ (∃! i, i < (unavailableValues sampleValues).length
            ∧ observedPrev (unavailableValues sampleValues).length (fun k => k + 2) i = 1)
        ∧ ∀ i, i < (unavailableValues sampleValues).length →
            observedPrev (unavailableValues sampleValues).length (fun k => k + 2) i = 1 →
            ∀ j, j < (unavailableValues sampleValues).length → j < i + 2)) :=
  ⟨by decide, RunWhenReady_join_barrier sampleValues (fun k => k) (fun k => k + 2)⟩

theorem ParallelFor_dispatch_witness :
    (0 : Nat) < 1 ∧
    (blockSize 1 1 8 = max 1 (8 / (4 * 1))
    ∧ (8 ≤ blockSize 1 1 8 →
        ParallelForRun 1 1 8 = PFRun.sync
        ∧ ParallelForTrace 1 1 8 = [PFEvent.compute 0 8, PFEvent.onDone]
        ∧ ParallelForEnqueues 1 1 8 = 0)
    ∧ (¬ 8 ≤ blockSize 1 1 8 →
        ParallelForRun 1 1 8 =
          PFRun.async (DivUp 8 (blockSize 1 1 8)) 0 (DivUp 8 (blockSize 1 1 8))
        ∧ 8 ≤ DivUp 8 (blockSize 1 1 8) * blockSize 1 1 8
        ∧ DivUp 8 (blockSize 1 1 8) * blockSize 1 1 8 < 8 + blockSize 1 1 8
        ∧ ∀ q, 8 ≤ q * blockSize 1 1 8 → DivUp 8 (blockSize 1 1 8) ≤ q)) :=
  ⟨by decide, ParallelFor_dispatch 1 1 8 (by decide) (by decide)⟩

theorem GetOrCreateShared_once_witness :
    5 < N_SHARED ∧
    (runSharedCalls (fun _ => none) 5 [7, 8, 9]).2 =
      [SCMResult.ok 7 true, SCMResult.ok 7 false, SCMResult.ok 7 false] :=
  ⟨by decide, by
    have h := (GetOrCreateShared_once 5).2 (by decide) (fun _ => none) rfl 7 [8, 9]
    simpa using h.1⟩

theorem EnqueueBlocking_accepted_bool_witness :
    (EnqueueBlockingWork rejectAllQueue 3).accepted = false ∧
    (AddBlockingTask rejectAllQueue 3 = some 3
      ∧ (EnqueueBlockingWork rejectAllQueue 3).ranInCall = false
      ∧ (EnqueueBlockingWork rejectAllQueue 3).returnedClosure = none) :=
  ⟨by decide, (EnqueueBlocking_accepted_bool rejectAllQueue 3).2 (by decide)⟩

theorem HostContext_instance_indices_witness :
    runHCOps 3 [HCOp.construct, HCOp.construct, HCOp.destroy 0, HCOp.construct] initHCGlobal
      = Except.ok (sampleHCFinal, [0, 1, 2])
    ∧ ([0, 1, 2] : List Nat) = List.range' initHCGlobal.nextIndex ([0, 1, 2] : List Nat).length
    ∧ sampleHCFinal.nextIndex = initHCGlobal.nextIndex + ([0, 1, 2] : List Nat).length
    ∧ (∀ i ∈ ([0, 1, 2] : List Nat), i < 3)
    ∧ List.Chain' (fun a b => a < b) [0, 1, 2] :=
  ⟨rfl, (HostContext_instance_indices 3).2.2.2
    [HCOp.construct, HCOp.construct, HCOp.destroy 0, HCOp.construct]
    initHCGlobal sampleHCFinal [0, 1, 2] rfl⟩

theorem EvalBlocks_terminates_and_counts_witness :
    (0 : Nat) < 4 ∧
    ((1 < 4 - 0 →
      0 < evalMid 0 4 ∧ evalMid 0 4 < 4 ∧
        EvalBlocks 10 3 0 4 =
          EvalBlocks 10 3 0 (evalMid 0 4) ++ EvalBlocks 10 3 (evalMid 0 4) 4)
    ∧ (4 - 0 = 1 → EvalBlocks 10 3 0 4 = [(0 * 3, min 10 (4 * 3))])
    ∧ (EvalBlocks 10 3 0 4).length = 4 - 0
    ∧ ∀ p, 0 < p → (EvalBlocks 10 3 0 p).length = p) :=
  ⟨by decide, EvalBlocks_terminates_and_counts 10 3 0 4 (by decide)⟩

theorem ParallelFor_zero_sync_witness :
    (0 : Nat) < 1 ∧
    (ParallelForRun 1 1 0 = PFRun.sync
    ∧ ParallelForComputes 1 1 0 = [(0, 0)]
    ∧ ParallelForTrace 1 1 0 = [PFEvent.compute 0 0, PFEvent.onDone]
    ∧ ParallelForEnqueues 1 1 0 = 0) :=
  ⟨by decide, ParallelFor_zero_sync 1 1 (by decide) (by decide)⟩

end HostCtx
